import Mathlib

/-!
A shallow embedding of `src/multi_directories_diff.py`: the cross-tree
equivalence-grouping engine.  Files are modelled by their basename, their
root-relative path and their byte content; `none` as the byte content models a
file that cannot be opened or read (an `IOError` on access).  The SHA-256
digest is modelled injectively by the byte content itself — every claim uses
the fingerprint only through equality, which for SHA-256 is byte equality under
the spec's own collision-free idealisation.  Python dicts preserve insertion
order and are embedded as association lists with in-place update.
-/

instance {ε α : Type} [DecidableEq ε] [DecidableEq α] : DecidableEq (Except ε α) := fun a b =>
  match a, b with
  | Except.error x, Except.error y =>
    if h : x = y then isTrue (by rw [h]) else isFalse (by simp [h])
  | Except.ok x, Except.ok y =>
    if h : x = y then isTrue (by rw [h]) else isFalse (by simp [h])
  | Except.error _, Except.ok _ => isFalse (by simp)
  | Except.ok _, Except.error _ => isFalse (by simp)

namespace MDiff

/-- Executable strict lexicographic comparison of two code-point lists, the
order Python uses on `str` values when `sorted` compares keys. -/
def lexLt : List Char → List Char → Bool
  | [], [] => false
  | [], _ :: _ => true
  | _ :: _, [] => false
  | a :: as, b :: bs => if a < b then true else if a = b then lexLt as bs else false

/-- Strict lexicographic order on strings, by code points. -/
def keyLt (a b : String) : Bool :=
  lexLt a.data b.data

/-- The reflexive closure used for sorting keys. -/
@[reducible] def keyOrd (a b : String) : Prop :=
  (!keyLt b a) = true

instance : DecidableRel keyOrd := fun a b => by
  unfold keyOrd
  infer_instance

/-- Index of the first occurrence of `a` in `l` (length of `l` if absent),
mirroring the `order` dict built in `main` from the declared root order. -/
def idxOfD {α : Type} [DecidableEq α] (a : α) : List α → Nat
  | [] => 0
  | b :: rest => if b = a then 0 else idxOfD a rest + 1

/-- Left fold that appends each element not yet seen, keeping first
occurrences in order: the insertion order of a Python dict's keys. -/
def firstSeenFrom {α : Type} [DecidableEq α] (acc : List α) : List α → List α
  | [] => acc
  | a :: rest => if a ∈ acc then firstSeenFrom acc rest else firstSeenFrom (acc ++ [a]) rest

/-- The distinct elements of `l`, first occurrences first. -/
def firstSeen {α : Type} [DecidableEq α] (l : List α) : List α :=
  firstSeenFrom [] l

/-- One file discovered during a root walk: basename, root-relative path, and
byte content (`none` when the file cannot be opened or read). -/
structure FoundFile where
  name : String
  rel : String
  bytes : Option (List Nat)
  deriving DecidableEq, Repr

/-- The per-basename record stored in a root's index by `scan_project`:
canonical relative path, fingerprint, and collision path list. -/
structure Entry where
  rel : String
  sha : List Nat
  collisions : List String
  deriving DecidableEq, Repr

/-- Embeds `sha256sum`: stream the file and return its digest.  Reading a file
that cannot be opened raises `IOError`, embedded as `Except.error`; the digest
of readable content is represented injectively by the content itself. -/
def sha256sum (bytes_ : Option (List Nat)) : Except String (List Nat) :=
  match bytes_ with
  | none => Except.error "IOError"
  | some bs => Except.ok bs

/-- The filename test applied by `root.rglob("*.py")`: fnmatch-style matching
of the pattern `*.py` against the basename — `*` matches any (possibly empty)
prefix, so the test is a pure suffix test on the code points.  pathlib
globbing does not special-case names starting with a dot. -/
def rglobMatch (name : String) : Bool :=
  decide (name.data.drop (name.data.length - 3) = ['.', 'p', 'y'])

/-- A basename is hidden (in the Unix sense) when it starts with a dot. -/
def isHidden (name : String) : Bool :=
  match name.data with
  | [] => false
  | c :: _ => decide (c = '.')

/-- The files yielded by `root.rglob("*.py")` out of all files below the root:
exactly those whose basename matches the pattern. -/
def discover (all : List FoundFile) : List FoundFile :=
  all.filter (fun f => rglobMatch f.name)

/-- Python `info.get(name)` on the insertion-ordered dict. -/
def lookupEntry (k : String) : List (String × Entry) → Option Entry
  | [] => none
  | (k', e) :: rest => if k' = k then some e else lookupEntry k rest

/-- In-place update of the value stored under an existing key, preserving
insertion order (Python's mutation of `info[name]`). -/
def updateEntry (k : String) (e : Entry) : List (String × Entry) → List (String × Entry)
  | [] => []
  | (k', e') :: rest => if k' = k then (k', e) :: rest else (k', e') :: updateEntry k e rest

/-- The body of `scan_project`'s loop over `root.rglob("*.py")`: hash the file
(the hash is computed before the membership test, so an unreadable file always
aborts), then either create the entry or record a collision. -/
def scanGo (info : List (String × Entry)) : List FoundFile → Except String (List (String × Entry))
  | [] => Except.ok info
  | f :: rest =>
    match sha256sum f.bytes with
    | Except.error e => Except.error e
    | Except.ok sha =>
      match lookupEntry f.name info with
      | none => scanGo (info ++ [(f.name, ⟨f.rel, sha, []⟩)]) rest
      | some e =>
        let cs := if e.collisions.isEmpty then [e.rel, f.rel] else e.collisions ++ [f.rel]
        scanGo (updateEntry f.name { e with collisions := cs } info) rest

/-- Embeds `scan_project`: fold the discovered files into a basename-keyed
index, first file wins, later same-basename files recorded as collisions. -/
def scan_project (files : List FoundFile) : Except String (List (String × Entry)) :=
  scanGo [] files

/-- Embeds `decide_status`: no flag set gives `missing_all`, all flags set
gives `all_exist`, otherwise the present column names joined by `_`. -/
def decide_status (flags : List Bool) (names : List String) : String :=
  if !flags.any id then "missing_all"
  else if flags.all id then "all_exist"
  else "_".intercalate ((names.zip flags).filterMap (fun p => if p.2 then some p.1 else none))

/-- Python `sha_to_gid.get(sha)` on the insertion-ordered dict. -/
def tlookup {α : Type} [DecidableEq α] (a : α) : List (α × Nat) → Option Nat
  | [] => none
  | (b, g) :: rest => if b = a then some g else tlookup a rest

/-- The per-key group-assignment loop of `main` (lines 148-163): walk the
roots' fingerprints in declared order with the `sha_to_gid` table and the
`next_gid` counter, assigning `none` to absent roots. -/
def groupLoop (table : List (List Nat × Nat)) (next : Nat) :
    List (Option (List Nat)) → List (Option Nat)
  | [] => []
  | none :: rest => none :: groupLoop table next rest
  | some sha :: rest =>
    match tlookup sha table with
    | some gid => some gid :: groupLoop table next rest
    | none => some next :: groupLoop (table ++ [(sha, next)]) (next + 1) rest

/-- Group assignment for one key: the loop started with an empty table and
`next_gid = 1`. -/
def assignGroups (shas : List (Option (List Nat))) : List (Option Nat) :=
  groupLoop [] 1 shas

/-- Append `n` to the bucket of group `g`, creating the bucket at the end when
`g` is new: Python `gid_to_projects.setdefault(gid, []).append(name)`. -/
def addBucket (bs : List (Nat × List String)) (g : Nat) (n : String) : List (Nat × List String) :=
  match bs with
  | [] => [(g, [n])]
  | (g', ms) :: rest => if g' = g then (g', ms ++ [n]) :: rest else (g', ms) :: addBucket rest g n

/-- One step of building `gid_to_projects`: absent roots (`gid is None`) are
skipped, present roots are appended to their group's bucket. -/
def bucketStep (bs : List (Nat × List String)) (p : String × Option Nat) :
    List (Nat × List String) :=
  match p.2 with
  | none => bs
  | some g => addBucket bs g p.1

/-- The `gid_to_projects` dict of `main`: fold the (name, gid) pairs in root
order, skipping absent roots. -/
def buckets (pairs : List (String × Option Nat)) : List (Nat × List String) :=
  pairs.foldl bucketStep []

/-- Python `gid_to_projects[gid]` (defaulting to the empty bucket). -/
def bucketGet (bs : List (Nat × List String)) (g : Nat) : List String :=
  match bs with
  | [] => []
  | (g', ms) :: rest => if g' = g then ms else bucketGet rest g

/-- The comparison used by `sorted(..., key=lambda x: order[x])`: order by
first index in the declared name list. -/
def ordLe (names : List String) (a b : String) : Prop :=
  idxOfD a names ≤ idxOfD b names

instance (names : List String) : DecidableRel (ordLe names) :=
  fun a b => Nat.decLe (idxOfD a names) (idxOfD b names)

/-- Python `sorted(members, key=lambda x: order[x])`. -/
def memberSort (names : List String) (ms : List String) : List String :=
  ms.insertionSort (ordLe names)

/-- Embeds the `group_summary` construction of `main` (lines 183-193): bucket
the names by group id, then join `G<id>:<members>` over ascending ids with
`;`, members sorted by declared root order and joined with `,`. -/
def groupSummary (names : List String) (gids : List (Option Nat)) : String :=
  let bs := buckets (names.zip gids)
  ";".intercalate
    (((bs.map Prod.fst).insertionSort (· ≤ ·)).map
      (fun g => "G" ++ toString g ++ ":" ++ ",".intercalate (memberSort names (bucketGet bs g))))

/-- The claim-relevant columns of one output row. -/
structure Row where
  key : String
  rootNames : List String
  presence : List Bool
  status : String
  groupIds : List (Option Nat)
  summary : String
  numGroups : Nat
  deriving DecidableEq, Repr

/-- The body of `main`'s per-key loop: look the key up in every root index in
declared order, then derive flags, status, group ids, summary and group
count. -/
def rowFor (names : List String) (idxs : List (List (String × Entry))) (key : String) : Row :=
  let lookups := idxs.map (fun idx => lookupEntry key idx)
  let flags := lookups.map Option.isSome
  let gids := assignGroups (lookups.map (fun d => d.map Entry.sha))
  { key := key
    rootNames := names
    presence := flags
    status := decide_status flags names
    groupIds := gids
    summary := groupSummary names gids
    numGroups := (buckets (names.zip gids)).length }

/-- Embeds `all_keys = set().union(*[idx.keys() for idx in index_list])`
followed by `sorted(all_keys)`: the distinct basenames of all indexes in
ascending lexicographic order. -/
def allKeysOf (idxs : List (List (String × Entry))) : List String :=
  ((idxs.map (fun idx => idx.map Prod.fst)).flatten.dedup).insertionSort keyOrd

/-- One declared root: its column label (produced by the caller's
`make_unique`/`short_name` naming of the path), whether the path exists,
whether it is a directory, and the files below it. -/
structure RootDecl where
  label : String
  onDisk : Bool
  isDir : Bool
  files : List FoundFile
  deriving DecidableEq, Repr

/-- The roots warned about as non-existent (`missing` in `main`). -/
def warnMissing (roots : List RootDecl) : List String :=
  (roots.filter (fun r => !r.onDisk)).map RootDecl.label

/-- The roots warned about as existing but not directories (`not_dir`). -/
def warnNotDir (roots : List RootDecl) : List String :=
  (roots.filter (fun r => r.onDisk && !r.isDir)).map RootDecl.label

/-- The roots kept for indexing: `p.exists() and p.is_dir()`. -/
def validRoots (roots : List RootDecl) : List RootDecl :=
  roots.filter (fun r => r.onDisk && r.isDir)

/-- Index every kept root in order; the first `IOError` aborts the run. -/
def scanAll : List RootDecl → Except String (List (List (String × Entry)))
  | [] => Except.ok []
  | r :: rest =>
    match scan_project (discover r.files) with
    | Except.error e => Except.error e
    | Except.ok idx =>
      match scanAll rest with
      | Except.error e => Except.error e
      | Except.ok idxs => Except.ok (idx :: idxs)

/-- Embeds the pipeline of `main` after argument handling: drop invalid
roots, index the rest, and build one row per key of the sorted key union. -/
def mainRun (roots : List RootDecl) : Except String (List Row) :=
  let vs := validRoots roots
  let names := vs.map RootDecl.label
  match scanAll vs with
  | Except.error e => Except.error e
  | Except.ok idxs => Except.ok ((allKeysOf idxs).map (rowFor names idxs))

/-- The rows of a successful run (a failed run has none). -/
def rowsOf (r : Except String (List Row)) : List Row :=
  match r with
  | Except.ok rows => rows
  | Except.error _ => []

/-- The `sha_to_gid` table after the distinct fingerprints `pre` were assigned
ids `b, b+1, ...` in order. -/
def tableOf (b : Nat) : List (List Nat) → List (List Nat × Nat)
  | [] => []
  | s :: rest => (s, b) :: tableOf (b + 1) rest

/-- The names at positions carrying group id `g`, in declared root order: the
spec's reading of one group's member list. -/
def specMembers (pairs : List (String × Option Nat)) (g : Nat) : List String :=
  pairs.filterMap (fun p => if p.2 = some g then some p.1 else none)

/-- The fingerprints of the roots whose index contains the key, in declared
root order: the spec's "fingerprints among roots where the key is present". -/
def specPresentShas (idxs : List (List (String × Entry))) (key : String) : List (List Nat) :=
  idxs.filterMap (fun idx => (lookupEntry key idx).map Entry.sha)

/-- The canonical names of exactly the present roots of a row, in declared
root order: the spec's reading of the composite status label's pieces. -/
def specPresent (row : Row) : List String :=
  (row.rootNames.zip row.presence).filterMap (fun p => if p.2 then some p.1 else none)

/-- How one basename's index entry evolves while the remaining same-name files
`l` are folded in: absent stays absent on no files, the first file becomes the
canonical entry, and later files append their paths to the collision list
(seeded with the canonical path). -/
def combineEntry (cur : Option Entry) (l : List FoundFile) : Option Entry :=
  match cur, l with
  | none, [] => none
  | some e, [] => some e
  | none, f :: rest =>
    some ⟨f.rel, f.bytes.getD [], if rest.isEmpty then [] else f.rel :: rest.map FoundFile.rel⟩
  | some e, f :: rest =>
    some { e with collisions :=
      (if e.collisions.isEmpty then [e.rel] else e.collisions) ++ f.rel :: rest.map FoundFile.rel }

/-- Byte content of the one-character file "1". -/
def bytesOne : List Nat := [49]

/-- Byte content of the one-character file "2". -/
def bytesTwo : List Nat := [50]

/-- The spec's concrete scenario: roots A and B hold `foo.py` with content
"1" under different relative paths, root C holds content "2". -/
def demoRootsABC : List RootDecl :=
  [⟨"A", true, true, [⟨"foo.py", "x/foo.py", some bytesOne⟩]⟩,
   ⟨"B", true, true, [⟨"foo.py", "y/foo.py", some bytesOne⟩]⟩,
   ⟨"C", true, true, [⟨"foo.py", "z/foo.py", some bytesTwo⟩]⟩]

/-- The spec's collision scenario: one root containing `a/dup.py` then
`b/dup.py` with the same bytes. -/
def demoDupFiles : List FoundFile :=
  [⟨"dup.py", "a/dup.py", some [55]⟩, ⟨"dup.py", "b/dup.py", some [55]⟩]

/-- A walk yielding a hidden python file and a non-matching file. -/
def demoHiddenFiles : List FoundFile :=
  [⟨".hack.py", "sub/.hack.py", some [1]⟩, ⟨"README.md", "README.md", some [2]⟩]

/-- Two declared roots, the second of which does not exist on disk. -/
def demoRootsInvalid : List RootDecl :=
  [⟨"a", true, true, [⟨"foo.py", "foo.py", some bytesOne⟩]⟩,
   ⟨"b", false, true, []⟩]

/-- Roots whose caller-derived labels are "missing", "all" and "c" (for
example from declared paths `missing`, `all`, `c`), where only the first two
hold `foo.py`. -/
def demoRootsMissingAll : List RootDecl :=
  [⟨"missing", true, true, [⟨"foo.py", "foo.py", some bytesOne⟩]⟩,
   ⟨"all", true, true, [⟨"foo.py", "foo.py", some bytesOne⟩]⟩,
   ⟨"c", true, true, []⟩]

/-- One root containing a matching file that cannot be read. -/
def demoRootsUnreadable : List RootDecl :=
  [⟨"a", true, true, [⟨"bad.py", "bad.py", none⟩]⟩]

theorem idxOfD_append_of_mem {α : Type} [DecidableEq α] {a : α} {l : List α} (t : List α)
    (h : a ∈ l) : idxOfD a (l ++ t) = idxOfD a l := by
  induction l with
  | nil => cases h
  | cons b rest ih =>
    by_cases hb : b = a
    · simp [idxOfD, hb]
    · cases h with
      | head => exact absurd rfl hb
      | tail _ h => simp [idxOfD, hb, ih h]

theorem idxOfD_append_of_not_mem {α : Type} [DecidableEq α] {a : α} {l : List α} (t : List α)
    (h : a ∉ l) : idxOfD a (l ++ t) = l.length + idxOfD a t := by
  induction l with
  | nil => simp
  | cons b rest ih =>
    have hb : ¬b = a := fun e => h (e ▸ List.mem_cons_self b rest)
    have hr : a ∉ rest := fun e => h (List.mem_cons_of_mem b e)
    simp [idxOfD, hb, ih hr]
    omega

theorem idxOfD_inj {α : Type} [DecidableEq α] {a b : α} {l : List α}
    (ha : a ∈ l) (hb : b ∈ l) (h : idxOfD a l = idxOfD b l) : a = b := by
  induction l with
  | nil => cases ha
  | cons c rest ih =>
    by_cases hca : c = a <;> by_cases hcb : c = b
    · exact hca.symm.trans hcb
    · exfalso
      rw [idxOfD, if_pos hca, idxOfD, if_neg hcb] at h
      exact Nat.succ_ne_zero _ h.symm
    · exfalso
      rw [idxOfD, if_neg hca, idxOfD, if_pos hcb] at h
      exact Nat.succ_ne_zero _ h
    · rw [idxOfD, if_neg hca, idxOfD, if_neg hcb] at h
      have ha' : a ∈ rest := (List.mem_cons.mp ha).resolve_left (fun e => hca e.symm)
      have hb' : b ∈ rest := (List.mem_cons.mp hb).resolve_left (fun e => hcb e.symm)
      exact ih ha' hb' (Nat.add_right_cancel h)

theorem firstSeenFrom_append {α : Type} [DecidableEq α] (l : List α) :
    ∀ pre, ∃ t, firstSeenFrom pre l = pre ++ t := by
  induction l with
  | nil => exact fun pre => ⟨[], by simp [firstSeenFrom]⟩
  | cons a rest ih =>
    intro pre
    by_cases h : a ∈ pre
    · simpa [firstSeenFrom, h] using ih pre
    · obtain ⟨t, ht⟩ := ih (pre ++ [a])
      exact ⟨[a] ++ t, by simp [firstSeenFrom, h, ht]⟩

theorem mem_firstSeenFrom {α : Type} [DecidableEq α] {x : α} (l : List α) :
    ∀ pre, x ∈ firstSeenFrom pre l ↔ x ∈ pre ∨ x ∈ l := by
  induction l with
  | nil => simp [firstSeenFrom]
  | cons a rest ih =>
    intro pre
    by_cases h : a ∈ pre
    · rw [firstSeenFrom, if_pos h, ih pre, List.mem_cons]
      constructor
      · rintro (hx | hx)
        · exact Or.inl hx
        · exact Or.inr (Or.inr hx)
      · rintro (hx | rfl | hx)
        · exact Or.inl hx
        · exact Or.inl h
        · exact Or.inr hx
    · rw [firstSeenFrom, if_neg h, ih (pre ++ [a]), List.mem_append, List.mem_singleton,
        List.mem_cons]
      tauto

theorem nodup_firstSeenFrom {α : Type} [DecidableEq α] (l : List α) :
    ∀ pre, pre.Nodup → (firstSeenFrom pre l).Nodup := by
  induction l with
  | nil => intro pre h; simpa [firstSeenFrom] using h
  | cons a rest ih =>
    intro pre hpre
    by_cases h : a ∈ pre
    · simpa [firstSeenFrom, h] using ih pre hpre
    · rw [firstSeenFrom, if_neg h]
      refine ih (pre ++ [a]) ?_
      simp [List.nodup_append, hpre, h]

theorem mem_firstSeen {α : Type} [DecidableEq α] {x : α} {l : List α} :
    x ∈ firstSeen l ↔ x ∈ l := by
  rw [firstSeen, mem_firstSeenFrom]
  simp

theorem nodup_firstSeen {α : Type} [DecidableEq α] (l : List α) : (firstSeen l).Nodup :=
  nodup_firstSeenFrom l [] List.nodup_nil

theorem tlookup_tableOf_mem {s : List Nat} : ∀ {pre : List (List Nat)} (b : Nat), s ∈ pre →
    tlookup s (tableOf b pre) = some (b + idxOfD s pre) := by
  intro pre
  induction pre with
  | nil => intro b h; cases h
  | cons c rest ih =>
    intro b h
    by_cases hc : c = s
    · simp [tableOf, tlookup, idxOfD, hc]
    · have hs : s ∈ rest := (List.mem_cons.mp h).resolve_left (fun e => hc e.symm)
      rw [tableOf, tlookup, if_neg hc, ih (b + 1) hs]
      have : b + 1 + idxOfD s rest = b + idxOfD s (c :: rest) := by
        simp [idxOfD, hc]; omega
      rw [this]

theorem tlookup_tableOf_not_mem {s : List Nat} : ∀ {pre : List (List Nat)} (b : Nat), s ∉ pre →
    tlookup s (tableOf b pre) = none := by
  intro pre
  induction pre with
  | nil => intro _ _; rfl
  | cons c rest ih =>
    intro b h
    have hc : ¬c = s := fun e => h (e ▸ List.mem_cons_self c rest)
    have hs : s ∉ rest := fun e => h (List.mem_cons_of_mem c e)
    rw [tableOf, tlookup, if_neg hc, ih (b + 1) hs]

theorem tableOf_append (s : List Nat) : ∀ (l : List (List Nat)) (b : Nat),
    tableOf b (l ++ [s]) = tableOf b l ++ [(s, b + l.length)] := by
  intro l
  induction l with
  | nil => intro b; simp [tableOf]
  | cons c rest ih =>
    intro b
    rw [List.cons_append, tableOf, tableOf, ih (b + 1)]
    simp
    omega

theorem groupLoop_eq : ∀ (shas : List (Option (List Nat))) (pre : List (List Nat)),
    groupLoop (tableOf 1 pre) (pre.length + 1) shas
      = shas.map (Option.map (fun s => idxOfD s (firstSeenFrom pre (shas.filterMap id)) + 1)) := by
  intro shas
  induction shas with
  | nil => intro pre; simp [groupLoop]
  | cons o rest ih =>
    intro pre
    cases o with
    | none =>
      rw [groupLoop, List.map_cons, ih pre]
      simp
    | some s =>
      by_cases hs : s ∈ pre
      · rw [groupLoop, tlookup_tableOf_mem 1 hs, List.map_cons]
        have hfs : (some s :: rest).filterMap id = s :: rest.filterMap id := by simp
        have hskip : firstSeenFrom pre (s :: rest.filterMap id)
            = firstSeenFrom pre (rest.filterMap id) := by
          rw [firstSeenFrom, if_pos hs]
        obtain ⟨t, ht⟩ := firstSeenFrom_append (rest.filterMap id) pre
        have hidx : idxOfD s (firstSeenFrom pre (rest.filterMap id)) = idxOfD s pre := by
          rw [ht, idxOfD_append_of_mem t hs]
        rw [ih pre, Nat.add_comm 1 (idxOfD s pre)]
        simp [hfs, hskip, hidx]
      · rw [groupLoop, tlookup_tableOf_not_mem 1 hs, List.map_cons]
        have hfs : (some s :: rest).filterMap id = s :: rest.filterMap id := by simp
        have hskip : firstSeenFrom pre (s :: rest.filterMap id)
            = firstSeenFrom (pre ++ [s]) (rest.filterMap id) := by
          rw [firstSeenFrom, if_neg hs]
        have htab : tableOf 1 pre ++ [(s, pre.length + 1)] = tableOf 1 (pre ++ [s]) := by
          rw [tableOf_append, Nat.add_comm 1 pre.length]
        have hnext : pre.length + 1 + 1 = (pre ++ [s]).length + 1 := by simp
        rw [htab, hnext, ih (pre ++ [s])]
        obtain ⟨t, ht⟩ := firstSeenFrom_append (rest.filterMap id) (pre ++ [s])
        have hidx : idxOfD s (firstSeenFrom (pre ++ [s]) (rest.filterMap id)) = pre.length := by
          rw [ht, List.append_assoc, idxOfD_append_of_not_mem ([s] ++ t) hs]
          simp [idxOfD]
        simp [hfs, hskip, hidx]

theorem lexLt_iff : ∀ (l₁ l₂ : List Char), lexLt l₁ l₂ = true ↔ List.Lex (· < ·) l₁ l₂
  | [], [] => by simp [lexLt]
  | [], _ :: _ => by
    simp only [lexLt, true_iff]
    exact List.Lex.nil
  | _ :: _, [] => by simp [lexLt]
  | a :: as, b :: bs => by
    rw [lexLt]
    by_cases hab : a < b
    · simp only [if_pos hab, true_iff]
      exact List.Lex.rel hab
    · rw [if_neg hab]
      by_cases heq : a = b
      · subst heq
        rw [if_pos rfl, lexLt_iff as bs]
        exact List.Lex.cons_iff.symm
      · simp only [if_neg heq, Bool.false_eq_true, false_iff]
        intro h
        cases h with
        | cons h => exact heq rfl
        | rel h => exact hab h

theorem keyLt_iff_lt (a b : String) : keyLt a b = true ↔ a < b := by
  rw [String.lt_iff_toList_lt]
  exact lexLt_iff a.data b.data

theorem keyOrd_iff_le (a b : String) : keyOrd a b ↔ a ≤ b := by
  have hn : (!keyLt b a) = true ↔ ¬(keyLt b a = true) := by
    cases keyLt b a <;> simp
  rw [keyOrd, hn, keyLt_iff_lt]
  exact not_lt

instance : IsTotal String keyOrd :=
  ⟨fun a b => by
    rw [keyOrd_iff_le, keyOrd_iff_le]
    exact le_total a b⟩

instance : IsTrans String keyOrd :=
  ⟨fun a b c hab hbc =>
    (keyOrd_iff_le a c).mpr (le_trans ((keyOrd_iff_le a b).mp hab) ((keyOrd_iff_le b c).mp hbc))⟩

theorem nodup_allKeysOf (idxs : List (List (String × Entry))) : (allKeysOf idxs).Nodup := by
  rw [allKeysOf]
  exact (List.perm_insertionSort keyOrd _).nodup_iff.mpr (List.nodup_dedup _)

theorem sorted_allKeysOf (idxs : List (List (String × Entry))) :
    (allKeysOf idxs).Sorted (· < ·) := by
  have hs : (allKeysOf idxs).Sorted keyOrd := List.sorted_insertionSort keyOrd _
  have hle : (allKeysOf idxs).Sorted (· ≤ ·) :=
    hs.imp (fun h => (keyOrd_iff_le _ _).mp h)
  exact hle.lt_of_le (nodup_allKeysOf idxs)

theorem mem_allKeysOf (idxs : List (List (String × Entry))) (k : String) :
    k ∈ allKeysOf idxs ↔ ∃ idx ∈ idxs, k ∈ idx.map Prod.fst := by
  rw [allKeysOf, List.mem_insertionSort, List.mem_dedup, List.mem_flatten]
  constructor
  · rintro ⟨l, hl, hk⟩
    obtain ⟨idx, hidx, rfl⟩ := List.mem_map.mp hl
    exact ⟨idx, hidx, hk⟩
  · rintro ⟨idx, hidx, hk⟩
    exact ⟨idx.map Prod.fst, List.mem_map_of_mem _ hidx, hk⟩

theorem lookupEntry_isSome_iff {k : String} : ∀ {idx : List (String × Entry)},
    (lookupEntry k idx).isSome ↔ k ∈ idx.map Prod.fst := by
  intro idx
  induction idx with
  | nil => simp [lookupEntry]
  | cons p rest ih =>
    obtain ⟨k', e⟩ := p
    by_cases h : k' = k
    · simp [lookupEntry, h]
    · simp [lookupEntry, h, ih, Ne.symm h]

theorem bucketGet_addBucket_self (bs : List (Nat × List String)) (g : Nat) (n : String) :
    bucketGet (addBucket bs g n) g = bucketGet bs g ++ [n] := by
  induction bs with
  | nil => simp [addBucket, bucketGet]
  | cons p rest ih =>
    obtain ⟨g', ms⟩ := p
    by_cases h : g' = g
    · simp [addBucket, bucketGet, h]
    · simp [addBucket, bucketGet, h, ih]

theorem bucketGet_addBucket_ne (bs : List (Nat × List String)) {g q : Nat} (n : String)
    (h : q ≠ g) : bucketGet (addBucket bs g n) q = bucketGet bs q := by
  induction bs with
  | nil => simp [addBucket, bucketGet, Ne.symm h]
  | cons p rest ih =>
    obtain ⟨g', ms⟩ := p
    by_cases hg : g' = g
    · subst hg
      simp [addBucket, bucketGet, Ne.symm h]
    · simp [addBucket, bucketGet, hg, ih]

theorem keys_addBucket (bs : List (Nat × List String)) (g : Nat) (n : String) :
    (addBucket bs g n).map Prod.fst
      = if g ∈ bs.map Prod.fst then bs.map Prod.fst else bs.map Prod.fst ++ [g] := by
  induction bs with
  | nil => simp [addBucket]
  | cons p rest ih =>
    obtain ⟨g', ms⟩ := p
    by_cases h : g' = g
    · simp [addBucket, h]
    · have hgg : g ≠ g' := fun e => h e.symm
      by_cases hm : g ∈ rest.map Prod.fst
      · have hc : g ∈ (g' :: rest.map Prod.fst) := List.mem_cons_of_mem _ hm
        simp [addBucket, h, ih, hm, hc]
      · have hc : g ∉ (g' :: rest.map Prod.fst) := by
          simp [List.mem_cons, hgg, hm]
        simp [addBucket, h, ih, hm, hc]

theorem bucketGet_foldl : ∀ (pairs : List (String × Option Nat))
    (bs : List (Nat × List String)) (g : Nat),
    bucketGet (pairs.foldl bucketStep bs) g = bucketGet bs g ++ specMembers pairs g := by
  intro pairs
  induction pairs with
  | nil => intro bs g; simp [specMembers]
  | cons p rest ih =>
    intro bs g
    obtain ⟨n, og⟩ := p
    rw [List.foldl_cons, ih]
    cases og with
    | none => simp [bucketStep, specMembers, List.filterMap_cons]
    | some g0 =>
      by_cases h : g0 = g
      · subst h
        simp [bucketStep, specMembers, List.filterMap_cons, bucketGet_addBucket_self,
          List.append_assoc]
      · simp [bucketStep, specMembers, List.filterMap_cons, h,
          bucketGet_addBucket_ne bs n (Ne.symm h)]

theorem keys_foldl : ∀ (pairs : List (String × Option Nat)) (bs : List (Nat × List String)),
    (pairs.foldl bucketStep bs).map Prod.fst
      = firstSeenFrom (bs.map Prod.fst) (pairs.filterMap Prod.snd) := by
  intro pairs
  induction pairs with
  | nil => intro bs; simp [firstSeenFrom]
  | cons p rest ih =>
    intro bs
    obtain ⟨n, og⟩ := p
    cases og with
    | none => simp [bucketStep, List.filterMap_cons, ih]
    | some g =>
      rw [List.foldl_cons, List.filterMap_cons]
      show ((rest.foldl bucketStep (bucketStep bs (n, some g))).map Prod.fst) = _
      rw [ih, bucketStep, keys_addBucket]
      by_cases h : g ∈ bs.map Prod.fst
      · rw [if_pos h]
        show _ = firstSeenFrom (bs.map Prod.fst) (g :: rest.filterMap Prod.snd)
        rw [firstSeenFrom, if_pos h]
      · rw [if_neg h]
        show _ = firstSeenFrom (bs.map Prod.fst) (g :: rest.filterMap Prod.snd)
        rw [firstSeenFrom, if_neg h]

theorem keys_buckets (pairs : List (String × Option Nat)) :
    (buckets pairs).map Prod.fst = firstSeen (pairs.filterMap Prod.snd) := by
  rw [buckets, keys_foldl]
  rfl

theorem bucketGet_buckets (pairs : List (String × Option Nat)) (g : Nat) :
    bucketGet (buckets pairs) g = specMembers pairs g := by
  rw [buckets, bucketGet_foldl]
  rfl

theorem length_buckets (pairs : List (String × Option Nat)) :
    (buckets pairs).length = (firstSeen (pairs.filterMap Prod.snd)).length := by
  rw [← keys_buckets, List.length_map]

theorem firstSeenFrom_map {α β : Type} [DecidableEq α] [DecidableEq β] (f : α → β) :
    ∀ (l acc : List α),
    (∀ a ∈ acc ++ l, ∀ b ∈ acc ++ l, f a = f b → a = b) →
    firstSeenFrom (acc.map f) (l.map f) = (firstSeenFrom acc l).map f := by
  intro l
  induction l with
  | nil => intro acc _; simp [firstSeenFrom]
  | cons a rest ih =>
    intro acc hinj
    have hamem : a ∈ acc ++ a :: rest := by simp
    have hmem : f a ∈ acc.map f ↔ a ∈ acc := by
      constructor
      · intro h
        obtain ⟨b, hb, he⟩ := List.mem_map.mp h
        have : b = a := hinj b (by simp [hb]) a hamem he
        exact this ▸ hb
      · exact fun h => List.mem_map_of_mem f h
    by_cases h : a ∈ acc
    · rw [List.map_cons, firstSeenFrom, if_pos (hmem.mpr h), firstSeenFrom, if_pos h]
      refine ih acc (fun x hx y hy e => hinj x ?_ y ?_ e) <;>
        · simp only [List.mem_append, List.mem_cons] at *
          tauto
    · rw [List.map_cons, firstSeenFrom, if_neg (fun hc => h (hmem.mp hc)),
        firstSeenFrom, if_neg h]
      have hcast : acc.map f ++ [f a] = (acc ++ [a]).map f := by simp
      rw [hcast]
      refine ih (acc ++ [a]) (fun x hx y hy e => hinj x ?_ y ?_ e) <;>
        · simp only [List.mem_append, List.mem_cons, List.mem_singleton] at *
          tauto

theorem length_firstSeen_eq_dedup {α : Type} [DecidableEq α] (l : List α) :
    (firstSeen l).length = l.dedup.length := by
  have hperm : List.Perm (firstSeen l) l.dedup := by
    rw [List.perm_ext_iff_of_nodup (nodup_firstSeen l) (List.nodup_dedup l)]
    intro x
    rw [mem_firstSeen, List.mem_dedup]
  exact hperm.length_eq

theorem length_firstSeen_map_of_inj {α β : Type} [DecidableEq α] [DecidableEq β]
    (f : α → β) (l : List α) (hinj : ∀ a ∈ l, ∀ b ∈ l, f a = f b → a = b) :
    (firstSeen (l.map f)).length = l.dedup.length := by
  have hmap := firstSeenFrom_map f l []
    (by
      intro a ha b hb hab
      simp only [List.nil_append] at ha hb
      exact hinj a ha b hb hab)
  rw [List.map_nil] at hmap
  rw [firstSeen, hmap, List.length_map, ← firstSeen, length_firstSeen_eq_dedup]

theorem assignGroups_eq (shas : List (Option (List Nat))) :
    assignGroups shas
      = shas.map (Option.map (fun s => idxOfD s (firstSeen (shas.filterMap id)) + 1)) :=
  groupLoop_eq shas []

theorem lookupEntry_append (n k : String) (e : Entry) : ∀ (info : List (String × Entry)),
    lookupEntry n (info ++ [(k, e)])
      = match lookupEntry n info with
        | some e' => some e'
        | none => if k = n then some e else none := by
  intro info
  induction info with
  | nil => simp [lookupEntry]
  | cons p rest ih =>
    obtain ⟨k', e'⟩ := p
    by_cases h : k' = n
    · simp [lookupEntry, h]
    · simp [lookupEntry, h, ih]

theorem lookupEntry_updateEntry_self (k : String) (e : Entry) :
    ∀ (info : List (String × Entry)), (lookupEntry k info).isSome →
    lookupEntry k (updateEntry k e info) = some e := by
  intro info
  induction info with
  | nil => intro h; simp [lookupEntry] at h
  | cons p rest ih =>
    intro hsome
    obtain ⟨k', e'⟩ := p
    by_cases h : k' = k
    · simp [updateEntry, lookupEntry, h]
    · rw [lookupEntry, if_neg h] at hsome
      simp [updateEntry, lookupEntry, h, ih hsome]

theorem lookupEntry_updateEntry_ne {n k : String} (h : n ≠ k) (e : Entry) :
    ∀ (info : List (String × Entry)),
    lookupEntry n (updateEntry k e info) = lookupEntry n info := by
  intro info
  induction info with
  | nil => rfl
  | cons p rest ih =>
    obtain ⟨k', e'⟩ := p
    by_cases hk : k' = k
    · have hn : ¬k' = n := fun hc => h ((hc ▸ hk : n = k))
      simp [updateEntry, lookupEntry, hk, hn, Ne.symm h]
    · simp [updateEntry, lookupEntry, hk, ih]

theorem combineEntry_cons_some (e : Entry) (f : FoundFile) (l : List FoundFile) :
    combineEntry (some e) (f :: l)
      = combineEntry
          (some { e with collisions :=
            if e.collisions.isEmpty then [e.rel, f.rel] else e.collisions ++ [f.rel] }) l := by
  cases l with
  | nil => cases hc : e.collisions <;> simp [combineEntry, hc]
  | cons f2 l2 => cases hc : e.collisions <;> simp [combineEntry, hc]

theorem scanGo_ok_lookup : ∀ (files : List FoundFile) (info : List (String × Entry)),
    (∀ f ∈ files, f.bytes.isSome) →
    ∃ out, scanGo info files = Except.ok out ∧
      ∀ n, lookupEntry n out
        = combineEntry (lookupEntry n info) (files.filter (fun f => f.name = n)) := by
  intro files
  induction files with
  | nil =>
    intro info _
    refine ⟨info, rfl, fun n => ?_⟩
    cases hc : lookupEntry n info <;> simp [combineEntry, hc]
  | cons f rest ih =>
    intro info hread
    obtain ⟨bs, hbs⟩ : ∃ bs, f.bytes = some bs :=
      Option.isSome_iff_exists.mp (hread f (List.mem_cons_self f rest))
    cases hl : lookupEntry f.name info with
    | none =>
      obtain ⟨out, hout, hch⟩ :=
        ih (info ++ [(f.name, ⟨f.rel, bs, []⟩)]) (fun g hg => hread g (List.mem_cons_of_mem f hg))
      refine ⟨out, ?_, ?_⟩
      · rw [scanGo, hbs]
        show (match lookupEntry f.name info with
          | none => scanGo (info ++ [(f.name, ⟨f.rel, bs, []⟩)]) rest
          | some e => scanGo (updateEntry f.name
              { e with collisions := if e.collisions.isEmpty then [e.rel, f.rel]
                  else e.collisions ++ [f.rel] } info) rest) = Except.ok out
        rw [hl]
        exact hout
      · intro n
        rw [hch n, lookupEntry_append]
        by_cases hn : f.name = n
        · subst hn
          rw [hl, List.filter_cons_of_pos (by simp)]
          cases hr : rest.filter (fun g => g.name = f.name) <;>
            simp [combineEntry, hbs]
        · rw [List.filter_cons_of_neg (by simp [hn])]
          cases hli : lookupEntry n info <;> simp [hn, hli]
    | some e =>
      obtain ⟨out, hout, hch⟩ :=
        ih (updateEntry f.name
            { e with collisions := if e.collisions.isEmpty then [e.rel, f.rel]
                else e.collisions ++ [f.rel] } info)
          (fun g hg => hread g (List.mem_cons_of_mem f hg))
      refine ⟨out, ?_, ?_⟩
      · rw [scanGo, hbs]
        show (match lookupEntry f.name info with
          | none => scanGo (info ++ [(f.name, ⟨f.rel, bs, []⟩)]) rest
          | some e => scanGo (updateEntry f.name
              { e with collisions := if e.collisions.isEmpty then [e.rel, f.rel]
                  else e.collisions ++ [f.rel] } info) rest) = Except.ok out
        rw [hl]
        exact hout
      · intro n
        rw [hch n]
        by_cases hn : f.name = n
        · subst hn
          rw [List.filter_cons_of_pos (by simp),
            lookupEntry_updateEntry_self _ _ info (by rw [hl]; rfl), hl,
            combineEntry_cons_some]
        · rw [List.filter_cons_of_neg (by simp [hn]),
            lookupEntry_updateEntry_ne (fun hc => hn hc.symm) _ info]

theorem scan_project_ok_lookup (files : List FoundFile)
    (hread : ∀ f ∈ files, f.bytes.isSome) :
    ∃ info, scan_project files = Except.ok info ∧
      ∀ n, lookupEntry n info = combineEntry none (files.filter (fun f => f.name = n)) := by
  obtain ⟨out, hout, hch⟩ := scanGo_ok_lookup files [] hread
  exact ⟨out, hout, fun n => hch n⟩

theorem scanGo_error : ∀ (files : List FoundFile) (info : List (String × Entry))
    (f : FoundFile), f ∈ files → f.bytes = none →
    ∃ e, scanGo info files = Except.error e := by
  intro files
  induction files with
  | nil => intro _ _ hf; cases hf
  | cons g rest ih =>
    intro info f hf hb
    cases hf with
    | head =>
      refine ⟨"IOError", ?_⟩
      rw [scanGo, hb]
      rfl
    | tail _ hf =>
      cases hbg : g.bytes with
      | none =>
        refine ⟨"IOError", ?_⟩
        rw [scanGo, hbg]
        rfl
      | some bs =>
        cases hl : lookupEntry g.name info with
        | none =>
          obtain ⟨e, he⟩ := ih (info ++ [(g.name, ⟨g.rel, bs, []⟩)]) f hf hb
          refine ⟨e, ?_⟩
          rw [scanGo, hbg]
          show (match lookupEntry g.name info with
            | none => scanGo (info ++ [(g.name, ⟨g.rel, bs, []⟩)]) rest
            | some e0 => scanGo (updateEntry g.name
                { e0 with collisions := if e0.collisions.isEmpty then [e0.rel, g.rel]
                    else e0.collisions ++ [g.rel] } info) rest) = Except.error e
          rw [hl]
          exact he
        | some e0 =>
          obtain ⟨e, he⟩ := ih (updateEntry g.name
              { e0 with collisions := if e0.collisions.isEmpty then [e0.rel, g.rel]
                  else e0.collisions ++ [g.rel] } info) f hf hb
          refine ⟨e, ?_⟩
          rw [scanGo, hbg]
          show (match lookupEntry g.name info with
            | none => scanGo (info ++ [(g.name, ⟨g.rel, bs, []⟩)]) rest
            | some e0 => scanGo (updateEntry g.name
                { e0 with collisions := if e0.collisions.isEmpty then [e0.rel, g.rel]
                    else e0.collisions ++ [g.rel] } info) rest) = Except.error e
          rw [hl]
          exact he

theorem scanAll_error : ∀ (roots : List RootDecl) (r : RootDecl) (f : FoundFile),
    r ∈ roots → f ∈ discover r.files → f.bytes = none →
    ∃ e, scanAll roots = Except.error e := by
  intro roots
  induction roots with
  | nil => intro _ _ hr; cases hr
  | cons r0 rest ih =>
    intro r f hr hf hb
    cases hr with
    | head =>
      obtain ⟨e, he⟩ := scanGo_error (discover r0.files) [] f hf hb
      refine ⟨e, ?_⟩
      rw [scanAll, scan_project] at *
      rw [he]
    | tail _ hr =>
      cases hs : scan_project (discover r0.files) with
      | error e =>
        refine ⟨e, ?_⟩
        rw [scanAll, hs]
      | ok idx =>
        obtain ⟨e, he⟩ := ih r f hr hf hb
        refine ⟨e, ?_⟩
        rw [scanAll, hs, he]

theorem scanAll_ok_length : ∀ (roots : List RootDecl) (idxs : List (List (String × Entry))),
    scanAll roots = Except.ok idxs → idxs.length = roots.length := by
  intro roots
  induction roots with
  | nil =>
    intro idxs h
    cases h
    rfl
  | cons r rest ih =>
    intro idxs h
    rw [scanAll] at h
    cases hs : scan_project (discover r.files) with
    | error e => rw [hs] at h; cases h
    | ok idx =>
      rw [hs] at h
      cases ha : scanAll rest with
      | error e => rw [ha] at h; cases h
      | ok idxs' =>
        rw [ha] at h
        cases h
        simp [ih idxs' ha]

theorem pairwise_ordLe (names : List String) (h : names.Nodup) :
    names.Pairwise (ordLe names) := by
  induction names with
  | nil => exact List.Pairwise.nil
  | cons n rest ih =>
    rw [List.nodup_cons] at h
    obtain ⟨hn, hrest⟩ := h
    refine List.Pairwise.cons ?_ ?_
    · intro b _
      rw [ordLe, idxOfD, if_pos rfl]
      exact Nat.zero_le _
    · refine (ih hrest).imp_of_mem ?_
      intro a b ha hb hab
      rw [ordLe] at hab ⊢
      have hna : ¬n = a := fun e => hn (e ▸ ha)
      have hnb : ¬n = b := fun e => hn (e ▸ hb)
      rw [idxOfD, if_neg hna, idxOfD, if_neg hnb]
      omega

theorem filterMap_if_sublist {α β : Type} (f : α → β) (P : α → Prop) [DecidablePred P] :
    ∀ (l : List α), List.Sublist (l.filterMap (fun x => if P x then some (f x) else none))
      (l.map f) := by
  intro l
  induction l with
  | nil => exact List.Sublist.refl []
  | cons a rest ih =>
    rw [List.filterMap_cons, List.map_cons]
    by_cases h : P a
    · rw [if_pos h]
      exact List.Sublist.cons₂ (f a) ih
    · rw [if_neg h]
      exact List.Sublist.cons (f a) ih

theorem filterMap_snd_zip : ∀ (names : List String) (gids : List (Option Nat)),
    names.length = gids.length →
    (names.zip gids).filterMap Prod.snd = gids.filterMap id := by
  intro names
  induction names with
  | nil =>
    intro gids h
    cases gids with
    | nil => rfl
    | cons g gs => simp at h
  | cons n rest ih =>
    intro gids h
    cases gids with
    | nil => simp at h
    | cons g gs =>
      rw [List.zip_cons_cons, List.filterMap_cons, List.filterMap_cons]
      cases g <;> simp [ih gs (by simpa using h)]

theorem memberSort_specMembers (names : List String) (gids : List (Option Nat))
    (hlen : names.length = gids.length) (hnod : names.Nodup) (g : Nat) :
    memberSort names (specMembers (names.zip gids) g) = specMembers (names.zip gids) g := by
  have hsub : List.Sublist (specMembers (names.zip gids) g) names := by
    have h1 := filterMap_if_sublist Prod.fst (fun p : String × Option Nat => p.2 = some g)
      (names.zip gids)
    rw [List.map_fst_zip names gids (le_of_eq hlen)] at h1
    exact h1
  have hsorted : (specMembers (names.zip gids) g).Pairwise (ordLe names) :=
    List.Pairwise.sublist hsub (pairwise_ordLe names hnod)
  exact List.Sorted.insertionSort_eq hsorted

theorem filterMap_id_map_optionMap {α β : Type} (f : α → β) (l : List (Option α)) :
    (l.map (Option.map f)).filterMap id = (l.filterMap id).map f := by
  induction l with
  | nil => rfl
  | cons o rest ih => cases o <;> simp [ih]

theorem intercalate_go_ne_nil (sep : String) :
    ∀ (xs : List String) (acc : String), acc.data ≠ [] →
    (String.intercalate.go acc sep xs).data ≠ [] := by
  intro xs
  induction xs with
  | nil => intro acc h; exact h
  | cons a as ih =>
    intro acc h
    rw [String.intercalate.go]
    refine ih (acc ++ sep ++ a) ?_
    rw [String.data_append, String.data_append]
    cases hd : acc.data with
    | nil => exact absurd hd h
    | cons c cs => simp

theorem intercalate_ne_empty (sep x : String) (xs : List String) (hx : x.data ≠ []) :
    String.intercalate sep (x :: xs) ≠ "" := by
  intro he
  have : (String.intercalate sep (x :: xs)).data ≠ [] := by
    rw [String.intercalate]
    exact intercalate_go_ne_nil sep xs x hx
  rw [he] at this
  exact this rfl

theorem mainRun_ok (roots : List RootDecl) (rows : List Row)
    (h : mainRun roots = Except.ok rows) :
    ∃ idxs, scanAll (validRoots roots) = Except.ok idxs ∧
      rows = (allKeysOf idxs).map (rowFor ((validRoots roots).map RootDecl.label) idxs) := by
  rw [mainRun] at h
  cases hs : scanAll (validRoots roots) with
  | error e => rw [hs] at h; cases h
  | ok idxs =>
    rw [hs] at h
    cases h
    exact ⟨idxs, rfl, rfl⟩

theorem zip_assignGroups (shas : List (Option (List Nat))) :
    shas.zip (assignGroups shas)
      = shas.map (fun o =>
          (o, o.map (fun s => idxOfD s (firstSeen (shas.filterMap id)) + 1))) := by
  rw [assignGroups_eq]
  have h := List.zip_map' id
    (Option.map (fun s => idxOfD s (firstSeen (shas.filterMap id)) + 1)) shas
  rw [List.map_id] at h
  rw [h]
  rfl

/-- Claim C1: for each key, the grouping loop of `main` assigns a group id to
exactly the roots whose index contains the key (absent roots get `none`, never
group 0); two present roots receive the same id iff their fingerprints are
byte-for-byte equal; ids are `1 +` the position of the root's fingerprint in
the first-seen order of distinct fingerprints over the roots in declared
order, so they are small integers starting at 1 assigned in the order new
fingerprints are first encountered; and in `rowFor` the fingerprint list fed
to the loop is exactly the per-root index lookup of the key. -/
theorem claim1_grouping (shas : List (Option (List Nat))) :
    ((assignGroups shas).length = shas.length)
    ∧ (∀ p ∈ shas.zip (assignGroups shas),
        (p.1.isSome ↔ p.2.isSome)
        ∧ (∀ g, p.2 = some g → 1 ≤ g)
        ∧ (∀ s, p.1 = some s →
            p.2 = some (idxOfD s (firstSeen (shas.filterMap id)) + 1)))
    ∧ (∀ p ∈ shas.zip (assignGroups shas), ∀ q ∈ shas.zip (assignGroups shas),
        ∀ s t, p.1 = some s → q.1 = some t → (p.2 = q.2 ↔ s = t))
    ∧ (∀ (names : List String) (idxs : List (List (String × Entry))) (key : String),
        (rowFor names idxs key).groupIds
          = assignGroups (idxs.map (fun idx => (lookupEntry key idx).map Entry.sha))) := by
  refine ⟨?_, ?_, ?_, ?_⟩
  · rw [assignGroups_eq, List.length_map]
  · intro p hp
    rw [zip_assignGroups] at hp
    obtain ⟨o, ho, rfl⟩ := List.mem_map.mp hp
    refine ⟨?_, ?_, ?_⟩
    · cases o <;> simp
    · intro g hg
      cases o with
      | none => simp at hg
      | some s =>
        simp only [Option.map_some'] at hg
        have : idxOfD s (firstSeen (shas.filterMap id)) + 1 = g := by
          simpa using hg
        omega
    · intro s hs
      cases o with
      | none => simp at hs
      | some t =>
        have ht : t = s := by simpa using hs
        subst ht
        simp
  · intro p hp q hq s t hps hqt
    rw [zip_assignGroups] at hp hq
    obtain ⟨o, ho, rfl⟩ := List.mem_map.mp hp
    obtain ⟨o', ho', rfl⟩ := List.mem_map.mp hq
    have ho1 : o = some s := hps
    have ho2 : o' = some t := hqt
    subst ho1
    subst ho2
    constructor
    · intro h
      have hF : idxOfD s (firstSeen (shas.filterMap id))
          = idxOfD t (firstSeen (shas.filterMap id)) := by
        simpa using h
      have hs' : s ∈ firstSeen (shas.filterMap id) :=
        mem_firstSeen.mpr (List.mem_filterMap.mpr ⟨some s, ho, rfl⟩)
      have ht' : t ∈ firstSeen (shas.filterMap id) :=
        mem_firstSeen.mpr (List.mem_filterMap.mpr ⟨some t, ho', rfl⟩)
      exact idxOfD_inj hs' ht' hF
    · rintro rfl
      rfl
  · intro names idxs key
    show assignGroups ((idxs.map (lookupEntry key)).map (Option.map Entry.sha)) = _
    rw [List.map_map]
    rfl

theorem claim1_grouping_witness :
    ((some 1 : Option Nat) = some 2) ↔ ([49] : List Nat) = [50] :=
  (claim1_grouping [some [49], none, some [49], some [50]]).2.2.1
    (some [49], some 1) (by decide) (some [50], some 2) (by decide) [49] [50] rfl rfl

/-- Claim C3: `decide_status` returns `missing_all` when no root has the key,
`all_exist` when every root (of the nonempty root list) has it regardless of
content, and otherwise the canonical names of exactly the present roots joined
by `_` in root-declaration order; the result depends only on the presence
flags and the names, so a key can be `all_exist` while its roots split into
several equivalence groups, as the three-root scenario shows. -/
theorem claim3_status (flags : List Bool) (names : List String) :
    (flags.any id = false → decide_status flags names = "missing_all")
    ∧ (flags ≠ [] → flags.all id = true → decide_status flags names = "all_exist")
    ∧ (flags.any id = true → flags.all id = false →
        decide_status flags names
          = "_".intercalate
              ((names.zip flags).filterMap (fun p => if p.2 then some p.1 else none)))
    ∧ ((rowsOf (mainRun demoRootsABC)).map (fun r => (r.status, r.numGroups))
        = [("all_exist", 2)]) := by
  refine ⟨?_, ?_, ?_, by decide⟩
  · intro h
    simp [decide_status, h]
  · intro hne hall
    have hany : flags.any id = true := by
      cases flags with
      | nil => exact absurd rfl hne
      | cons b bs =>
        rw [List.all_cons] at hall
        obtain ⟨hb, _⟩ := Bool.and_eq_true_iff.mp hall
        rw [List.any_cons]
        simp only [Bool.or_eq_true]
        exact Or.inl hb
    simp [decide_status, hany, hall]
  · intro hany hall
    simp [decide_status, hany, hall]

/-- Claim C2: the group summary lists each group as `G<id>:` followed by its
member root names joined by commas in original root-declaration order, with
groups listed in ascending id order and joined by `;`; the enumerated id list
is strictly ascending and contains exactly the assigned ids; and in the
three-root scenario (A and B share content, C differs) the emitted row has
presence [true,true,true], status `all_exist` and summary `"G1:A,B;G2:C"`. -/
theorem claim2_summary (names : List String) (gids : List (Option Nat))
    (hlen : names.length = gids.length) (hnod : names.Nodup) :
    (groupSummary names gids
      = ";".intercalate
          (((firstSeen (gids.filterMap id)).insertionSort (· ≤ ·)).map
            (fun g => "G" ++ toString g ++ ":"
              ++ ",".intercalate (specMembers (names.zip gids) g))))
    ∧ ((firstSeen (gids.filterMap id)).insertionSort (· ≤ ·)).Sorted (· < ·)
    ∧ (∀ g, g ∈ (firstSeen (gids.filterMap id)).insertionSort (· ≤ ·) ↔ some g ∈ gids)
    ∧ rowsOf (mainRun demoRootsABC)
        = [⟨"foo.py", ["A", "B", "C"], [true, true, true], "all_exist",
            [some 1, some 1, some 2], "G1:A,B;G2:C", 2⟩] := by
  refine ⟨?_, ?_, ?_, by decide⟩
  · simp only [groupSummary]
    rw [keys_buckets, filterMap_snd_zip names gids hlen]
    have hfun : (fun g => "G" ++ toString g ++ ":"
          ++ ",".intercalate (memberSort names (bucketGet (buckets (names.zip gids)) g)))
        = (fun g => "G" ++ toString g ++ ":"
          ++ ",".intercalate (specMembers (names.zip gids) g)) := by
      funext g
      rw [bucketGet_buckets, memberSort_specMembers names gids hlen hnod]
    rw [hfun]
  · have hn : (firstSeen (gids.filterMap id)).Nodup := nodup_firstSeen _
    have hs := List.sorted_insertionSort (α := Nat) (· ≤ ·) (firstSeen (gids.filterMap id))
    have hn2 : ((firstSeen (gids.filterMap id)).insertionSort (· ≤ ·)).Nodup :=
      (List.perm_insertionSort _ _).nodup_iff.mpr hn
    exact hs.lt_of_le hn2
  · intro g
    rw [List.mem_insertionSort, mem_firstSeen, List.mem_filterMap]
    constructor
    · rintro ⟨a, ha, hid⟩
      rw [show id a = a from rfl] at hid
      exact hid ▸ ha
    · intro h
      exact ⟨some g, h, rfl⟩

theorem claim2_summary_witness :
    groupSummary ["A", "B", "C"] [some 1, some 1, some 2]
      = ";".intercalate
          (((firstSeen ([some 1, some 1, some 2].filterMap id)).insertionSort (· ≤ ·)).map
            (fun g => "G" ++ toString g ++ ":"
              ++ ",".intercalate (specMembers (["A", "B", "C"].zip [some 1, some 1, some 2]) g))) :=
  (claim2_summary ["A", "B", "C"] [some 1, some 1, some 2] (by decide) (by decide)).1

/-- Claim C4: the number of groups of a row equals the number of distinct
fingerprints among the roots where the key is present; a key present in no
root yields zero groups and an empty summary; a key present in exactly one
root yields exactly one group. -/
theorem claim4_numGroups (names : List String) (idxs : List (List (String × Entry)))
    (key : String) (hlen : names.length = idxs.length) :
    ((rowFor names idxs key).numGroups = (specPresentShas idxs key).dedup.length)
    ∧ (specPresentShas idxs key = [] →
        (rowFor names idxs key).numGroups = 0 ∧ (rowFor names idxs key).summary = "")
    ∧ (∀ s, specPresentShas idxs key = [s] → (rowFor names idxs key).numGroups = 1) := by
  have hshas : ((idxs.map (fun idx => lookupEntry key idx)).map
      (Option.map Entry.sha)).filterMap id = specPresentShas idxs key := by
    rw [List.map_map, List.filterMap_map]
    rfl
  have hglen : (assignGroups ((idxs.map (fun idx => lookupEntry key idx)).map
      (Option.map Entry.sha))).length = names.length := by
    rw [assignGroups_eq, List.length_map, List.length_map, List.length_map, hlen]
  have hmain : (rowFor names idxs key).numGroups = (specPresentShas idxs key).dedup.length := by
    show (buckets (names.zip (assignGroups ((idxs.map (fun idx => lookupEntry key idx)).map
      (Option.map Entry.sha))))).length = _
    rw [length_buckets, filterMap_snd_zip _ _ hglen.symm, assignGroups_eq,
      filterMap_id_map_optionMap]
    rw [hshas]
    refine length_firstSeen_map_of_inj _ _ ?_
    intro a ha b hb hab
    simp only [Nat.add_right_cancel_iff] at hab
    exact idxOfD_inj (mem_firstSeen.mpr ha) (mem_firstSeen.mpr hb) hab
  refine ⟨hmain, ?_, ?_⟩
  · intro hzero
    constructor
    · rw [hmain, hzero]
      rfl
    · have hfm : ((idxs.map (fun idx => lookupEntry key idx)).map
          (Option.map Entry.sha)).filterMap id = [] := by rw [hshas, hzero]
      have hkeys : (buckets (names.zip (assignGroups ((idxs.map
          (fun idx => lookupEntry key idx)).map (Option.map Entry.sha))))).map Prod.fst = [] := by
        rw [keys_buckets, filterMap_snd_zip _ _ hglen.symm, assignGroups_eq,
          filterMap_id_map_optionMap, hfm]
        rfl
      have hbs := List.map_eq_nil_iff.mp hkeys
      show groupSummary names (assignGroups ((idxs.map (fun idx => lookupEntry key idx)).map
        (Option.map Entry.sha))) = ""
      simp only [groupSummary]
      rw [hbs]
      rfl
  · intro s hone
    rw [hmain, hone]
    rfl

theorem claim4_numGroups_witness :
    (rowFor ["A"] [[("foo.py", ⟨"foo.py", [49], []⟩)]] "foo.py").numGroups
      = (specPresentShas [[("foo.py", ⟨"foo.py", [49], []⟩)]] "foo.py").dedup.length :=
  (claim4_numGroups ["A"] [[("foo.py", ⟨"foo.py", [49], []⟩)]] "foo.py" (by decide)).1

theorem claim3_status_witness :
    decide_status [true, false] ["a", "b"]
      = "_".intercalate
          (((["a", "b"].zip [true, false])).filterMap (fun p => if p.2 then some p.1 else none)) :=
  (claim3_status [true, false] ["a", "b"]).2.2.1 (by decide) (by decide)

/-- Claim C5: the report's key sequence is the set union of all root indexes'
key sets, sorted strictly ascending in the lexicographic (code point) order on
the basename string, with one row per distinct basename; the iteration domain
is this union, not any single root's file list. -/
theorem claim5_keys (idxs : List (List (String × Entry))) :
    (allKeysOf idxs).Sorted (· < ·)
    ∧ (allKeysOf idxs).Nodup
    ∧ (∀ k, k ∈ allKeysOf idxs ↔ ∃ idx ∈ idxs, k ∈ idx.map Prod.fst)
    ∧ (∀ a b : String, a < b ↔ List.Lex (· < ·) a.data b.data)
    ∧ (∀ (roots : List RootDecl) (rows : List Row) (idxs' : List (List (String × Entry))),
        mainRun roots = Except.ok rows → scanAll (validRoots roots) = Except.ok idxs' →
        rows.map Row.key = allKeysOf idxs') := by
  refine ⟨sorted_allKeysOf idxs, nodup_allKeysOf idxs, mem_allKeysOf idxs, ?_, ?_⟩
  · intro a b
    rw [String.lt_iff_toList_lt]
    exact Iff.rfl
  · intro roots rows idxs' hrun hscan
    obtain ⟨idxs0, hscan0, hrows⟩ := mainRun_ok roots rows hrun
    rw [hscan0] at hscan
    injection hscan with heq
    subst heq
    rw [hrows, List.map_map]
    have hcomp : (Row.key ∘ rowFor ((validRoots roots).map RootDecl.label) idxs0) = id := by
      funext k
      rfl
    rw [hcomp, List.map_id]

theorem claim5_keys_witness :
    (rowsOf (mainRun demoRootsABC)).map Row.key
      = allKeysOf [[("foo.py", ⟨"x/foo.py", [49], []⟩)],
          [("foo.py", ⟨"y/foo.py", [49], []⟩)],
          [("foo.py", ⟨"z/foo.py", [50], []⟩)]] :=
  (claim5_keys [[("foo.py", ⟨"x/foo.py", [49], []⟩)],
      [("foo.py", ⟨"y/foo.py", [49], []⟩)],
      [("foo.py", ⟨"z/foo.py", [50], []⟩)]]).2.2.2.2
    demoRootsABC (rowsOf (mainRun demoRootsABC)) _ (by decide) (by decide)

/-- Claim C6: within one root, the first file encountered with a basename
becomes the entry's canonical relative path and its fingerprint is the one
kept; every later file with the same basename appends its relative path to the
collision list, which is seeded with the canonical path on the first
collision; in particular scanning `a/dup.py` then `b/dup.py` yields
relativePath `a/dup.py` and collisions `["a/dup.py", "b/dup.py"]`. -/
theorem claim6_collisions (files : List FoundFile)
    (hread : ∀ f ∈ files, f.bytes.isSome) :
    (∃ info, scan_project files = Except.ok info)
    ∧ (∀ info, scan_project files = Except.ok info → ∀ n,
        (files.filter (fun f => f.name = n) = [] → lookupEntry n info = none)
        ∧ (∀ f rest, files.filter (fun f => f.name = n) = f :: rest →
            lookupEntry n info = some ⟨f.rel, f.bytes.getD [],
              if rest.isEmpty then [] else f.rel :: rest.map FoundFile.rel⟩))
    ∧ scan_project demoDupFiles
        = Except.ok [("dup.py", ⟨"a/dup.py", [55], ["a/dup.py", "b/dup.py"]⟩)] := by
  obtain ⟨info0, hinfo0, hch⟩ := scan_project_ok_lookup files hread
  refine ⟨⟨info0, hinfo0⟩, ?_, by decide⟩
  intro info hinfo n
  rw [hinfo0] at hinfo
  cases hinfo
  constructor
  · intro hnil
    rw [hch n, hnil]
    rfl
  · intro f rest hfr
    rw [hch n, hfr]
    rfl

theorem claim6_collisions_witness :
    scan_project demoDupFiles
      = Except.ok [("dup.py", ⟨"a/dup.py", [55], ["a/dup.py", "b/dup.py"]⟩)] :=
  (claim6_collisions demoDupFiles (by decide)).2.2

/-- Claim C7 counterexample: the walk's filter is the pure suffix pattern
`*.py`, which also matches hidden names, so the hidden file `.hack.py` is
matched, indexed and appears in the resulting RootIndex — the claim that no
hidden file appears in the index is false.  (The non-matching `README.md` is
excluded, confirming the suffix part.) -/
theorem claim7_counterexample :
    isHidden ".hack.py" = true
    ∧ rglobMatch ".hack.py" = true
    ∧ scan_project (discover demoHiddenFiles)
        = Except.ok [(".hack.py", ⟨"sub/.hack.py", [1], []⟩)]
    ∧ rglobMatch "README.md" = false := by
  refine ⟨by decide, by decide, by decide, by decide⟩

/-- Claim C7 amended: a file below the root is handed to the indexer iff its
basename matches the `*.py` suffix pattern — a decision made purely from the
name and never from content (replacing every file's bytes leaves the selection
unchanged); the code applies no hidden-file or symlink exclusion of its own. -/
theorem claim7_amended (all : List FoundFile) (f : FoundFile) :
    (f ∈ discover all ↔ f ∈ all ∧ rglobMatch f.name = true)
    ∧ (∀ t : Option (List Nat) → Option (List Nat),
        discover (all.map (fun g => { g with bytes := t g.bytes }))
          = (discover all).map (fun g => { g with bytes := t g.bytes })) := by
  constructor
  · rw [discover, List.mem_filter]
  · intro t
    rw [discover, discover, List.filter_map]
    rfl

/-- Claim C8: `sha256sum` fails exactly on a file that cannot be read, and the
failure propagates: a scan containing an unreadable matching file returns the
error and never an index (so the file is never silently treated as absent),
and `main` aborts the whole run when any kept root contains one. -/
theorem claim8_ioerror :
    (sha256sum none = Except.error "IOError")
    ∧ (∀ bs, sha256sum (some bs) = Except.ok bs)
    ∧ (∀ (files : List FoundFile) (f : FoundFile), f ∈ files → f.bytes = none →
        (∃ e, scan_project files = Except.error e)
        ∧ ∀ info, scan_project files ≠ Except.ok info)
    ∧ (∀ (roots : List RootDecl) (r : RootDecl) (f : FoundFile),
        r ∈ validRoots roots → f ∈ discover r.files → f.bytes = none →
        ∃ e, mainRun roots = Except.error e) := by
  refine ⟨rfl, fun bs => rfl, ?_, ?_⟩
  · intro files f hf hb
    obtain ⟨e, he⟩ := scanGo_error files [] f hf hb
    refine ⟨⟨e, he⟩, ?_⟩
    intro info hcon
    rw [scan_project, he] at hcon
    cases hcon
  · intro roots r f hr hf hb
    obtain ⟨e, he⟩ := scanAll_error (validRoots roots) r f hr hf hb
    refine ⟨e, ?_⟩
    rw [mainRun, he]

theorem claim8_ioerror_witness :
    ∃ e, mainRun demoRootsUnreadable = Except.error e :=
  claim8_ioerror.2.2.2 demoRootsUnreadable ⟨"a", true, true, [⟨"bad.py", "bad.py", none⟩]⟩
    ⟨"bad.py", "bad.py", none⟩ (by decide) (by decide) rfl

/-- Claim C9 counterexample: with a valid root labelled `a` holding `foo.py`
and a declared root `b` that does not exist, `b` is warned about and dropped,
but the report row carries no column for `b` at all — its root-name list is
just `["a"]` and its presence vector has one entry — so the report does not
show the invalid root as absent. -/
theorem claim9_counterexample :
    warnMissing demoRootsInvalid = ["b"]
    ∧ (rowsOf (mainRun demoRootsInvalid)).map Row.rootNames = [["a"]]
    ∧ (rowsOf (mainRun demoRootsInvalid)).map Row.presence = [[true]]
    ∧ demoRootsInvalid.length = 2
    ∧ (∀ row ∈ rowsOf (mainRun demoRootsInvalid), "b" ∉ row.rootNames) := by
  refine ⟨by decide, by decide, by decide, by decide, by decide⟩

/-- Claim C9 amended: a declared root that does not exist or is not a
directory is reported in exactly one of the two warning lists and is excluded
from the run entirely: the output equals the run on the valid roots alone, and
every row's per-root columns cover exactly the valid roots' labels — the
invalid root contributes no per-key absent flag. -/
theorem claim9_amended (roots : List RootDecl) :
    mainRun roots = mainRun (validRoots roots)
    ∧ (∀ rows, mainRun roots = Except.ok rows → ∀ row ∈ rows,
        row.rootNames = (validRoots roots).map RootDecl.label)
    ∧ (∀ r ∈ roots, ¬(r.onDisk = true ∧ r.isDir = true) →
        r.label ∈ warnMissing roots ∨ r.label ∈ warnNotDir roots) := by
  refine ⟨?_, ?_, ?_⟩
  · have hidem : validRoots (validRoots roots) = validRoots roots := by
      rw [validRoots, validRoots, List.filter_filter]
      simp
    simp only [mainRun, hidem]
  · intro rows hrun row hrow
    obtain ⟨idxs, hscan, hrows⟩ := mainRun_ok roots rows hrun
    rw [hrows] at hrow
    obtain ⟨k, hk, rfl⟩ := List.mem_map.mp hrow
    rfl
  · intro r hr hinv
    by_cases hd : r.onDisk = true
    · right
      rw [warnNotDir]
      refine List.mem_map_of_mem _ (List.mem_filter.mpr ⟨hr, ?_⟩)
      have hnd : ¬r.isDir = true := fun h => hinv ⟨hd, h⟩
      simp only [Bool.not_eq_true] at hnd
      simp [hd, hnd]
    · left
      rw [warnMissing]
      refine List.mem_map_of_mem _ (List.mem_filter.mpr ⟨hr, ?_⟩)
      simp only [Bool.not_eq_true] at hd
      simp [hd]

theorem claim9_amended_witness :
    "b" ∈ warnMissing demoRootsInvalid ∨ "b" ∈ warnNotDir demoRootsInvalid :=
  (claim9_amended demoRootsInvalid).2.2 ⟨"b", false, true, []⟩ (by decide) (by decide)

theorem exists_fst_of_mem_snd {α β : Type} :
    ∀ (l₁ : List α) (l₂ : List β) (b : β), l₁.length = l₂.length → b ∈ l₂ →
    ∃ a, (a, b) ∈ l₁.zip l₂ := by
  intro l₁
  induction l₁ with
  | nil =>
    intro l₂ b h hb
    cases l₂ with
    | nil => cases hb
    | cons b0 bs => simp at h
  | cons a rest ih =>
    intro l₂ b h hb
    cases l₂ with
    | nil => cases hb
    | cons b0 bs =>
      cases hb with
      | head => exact ⟨a, by simp⟩
      | tail _ hb =>
        obtain ⟨a', ha'⟩ := ih bs b (by simpa using h) hb
        exact ⟨a', List.mem_cons_of_mem _ ha'⟩

/-- Claim C10 counterexample: the iteration domain guarantees a present root
for every row, but the status string `"missing_all"` can still appear in the
output: with roots labelled `missing`, `all` and `c` (the labels derived from
declared paths `missing`, `all`, `c`) and `foo.py` present in the first two
only, the composite label literally spells `missing_all` while the key is
present in two roots. -/
theorem claim10_counterexample :
    (rowsOf (mainRun demoRootsMissingAll)).map Row.status = ["missing_all"]
    ∧ (rowsOf (mainRun demoRootsMissingAll)).map Row.presence = [[true, true, false]] :=
  ⟨by decide, by decide⟩

/-- Claim C10 amended: every emitted row has at least one present root, at
least one group and a non-empty group summary, and the `missing_all` branch of
the classifier is never taken — the status is `all_exist` when every root is
present and otherwise the `_`-join of the non-empty present-root name list,
which can spell `"missing_all"` only through the root names themselves. -/
theorem claim10_amended (roots : List RootDecl) (rows : List Row) (row : Row)
    (hrun : mainRun roots = Except.ok rows) (hrow : row ∈ rows) :
    row.presence.any id = true
    ∧ 1 ≤ row.numGroups
    ∧ row.summary ≠ ""
    ∧ ((row.presence.all id = true ∧ row.status = "all_exist")
        ∨ (row.status = "_".intercalate (specPresent row) ∧ specPresent row ≠ [])) := by
  obtain ⟨idxs, hscan, hrows⟩ := mainRun_ok roots rows hrun
  rw [hrows] at hrow
  obtain ⟨k, hk, rfl⟩ := List.mem_map.mp hrow
  have hlen : ((validRoots roots).map RootDecl.label).length = idxs.length := by
    rw [List.length_map, scanAll_ok_length (validRoots roots) idxs hscan]
  obtain ⟨idx, hidx, hkin⟩ := (mem_allKeysOf idxs k).mp hk
  have hlook : (lookupEntry k idx).isSome = true := lookupEntry_isSome_iff.mpr hkin
  have hmemL : lookupEntry k idx ∈ idxs.map (fun i => lookupEntry k i) :=
    List.mem_map.mpr ⟨idx, hidx, rfl⟩
  have hany : ((idxs.map (fun i => lookupEntry k i)).map Option.isSome).any id = true := by
    rw [List.any_eq_true]
    exact ⟨true, List.mem_map.mpr ⟨lookupEntry k idx, hmemL, hlook⟩, rfl⟩
  have hglen : (assignGroups ((idxs.map (fun i => lookupEntry k i)).map
      (Option.map Entry.sha))).length = ((validRoots roots).map RootDecl.label).length := by
    rw [assignGroups_eq, List.length_map, List.length_map, List.length_map, hlen]
  obtain ⟨e, he⟩ := Option.isSome_iff_exists.mp hlook
  have hgmem : some (idxOfD e.sha (firstSeen ((((idxs.map (fun i => lookupEntry k i)).map
        (Option.map Entry.sha))).filterMap id)) + 1)
      ∈ assignGroups ((idxs.map (fun i => lookupEntry k i)).map (Option.map Entry.sha)) := by
    rw [assignGroups_eq]
    refine List.mem_map.mpr ⟨some e.sha, ?_, rfl⟩
    exact List.mem_map.mpr ⟨lookupEntry k idx, hmemL, by rw [he]; rfl⟩
  have hfne : (assignGroups ((idxs.map (fun i => lookupEntry k i)).map
      (Option.map Entry.sha))).filterMap id ≠ [] := by
    apply List.ne_nil_of_mem (a := idxOfD e.sha (firstSeen ((((idxs.map
      (fun i => lookupEntry k i)).map (Option.map Entry.sha))).filterMap id)) + 1)
    exact List.mem_filterMap.mpr ⟨_, hgmem, rfl⟩
  have hkeys : (buckets (((validRoots roots).map RootDecl.label).zip
      (assignGroups ((idxs.map (fun i => lookupEntry k i)).map
        (Option.map Entry.sha))))).map Prod.fst
      = firstSeen ((assignGroups ((idxs.map (fun i => lookupEntry k i)).map
        (Option.map Entry.sha))).filterMap id) := by
    rw [keys_buckets, filterMap_snd_zip _ _ hglen.symm]
  have hbne : buckets (((validRoots roots).map RootDecl.label).zip
      (assignGroups ((idxs.map (fun i => lookupEntry k i)).map
        (Option.map Entry.sha)))) ≠ [] := by
    intro hb
    have : firstSeen ((assignGroups ((idxs.map (fun i => lookupEntry k i)).map
        (Option.map Entry.sha))).filterMap id) = [] := by
      rw [← hkeys, hb]
      rfl
    obtain ⟨x, hx⟩ := List.exists_mem_of_ne_nil _ hfne
    exact List.ne_nil_of_mem (mem_firstSeen.mpr hx) this
  refine ⟨hany, ?_, ?_, ?_⟩
  · show 1 ≤ (buckets (((validRoots roots).map RootDecl.label).zip
      (assignGroups ((idxs.map (fun i => lookupEntry k i)).map
        (Option.map Entry.sha))))).length
    exact List.length_pos.mpr hbne
  · show groupSummary ((validRoots roots).map RootDecl.label)
      (assignGroups ((idxs.map (fun i => lookupEntry k i)).map (Option.map Entry.sha))) ≠ ""
    simp only [groupSummary]
    have hsne : ((buckets (((validRoots roots).map RootDecl.label).zip
        (assignGroups ((idxs.map (fun i => lookupEntry k i)).map
          (Option.map Entry.sha))))).map Prod.fst).insertionSort (· ≤ ·) ≠ [] := by
      intro hnil
      have hperm := List.perm_insertionSort (α := Nat) (· ≤ ·)
        ((buckets (((validRoots roots).map RootDecl.label).zip
          (assignGroups ((idxs.map (fun i => lookupEntry k i)).map
            (Option.map Entry.sha))))).map Prod.fst)
      rw [hnil] at hperm
      have := hperm.symm.eq_nil
      exact hbne (List.map_eq_nil_iff.mp this)
    obtain ⟨g, gs, hcons⟩ := List.exists_cons_of_ne_nil hsne
    rw [hcons, List.map_cons]
    apply intercalate_ne_empty
    simp [String.data_append]
  · show ((((idxs.map (fun i => lookupEntry k i)).map Option.isSome).all id = true
        ∧ decide_status ((idxs.map (fun i => lookupEntry k i)).map Option.isSome)
            ((validRoots roots).map RootDecl.label) = "all_exist")
      ∨ _)
    by_cases hall : ((idxs.map (fun i => lookupEntry k i)).map Option.isSome).all id = true
    · left
      refine ⟨hall, ?_⟩
      rw [decide_status, hany, hall]
      rfl
    · right
      have hall' : ((idxs.map (fun i => lookupEntry k i)).map Option.isSome).all id = false := by
        simpa using hall
      constructor
      · show decide_status ((idxs.map (fun i => lookupEntry k i)).map Option.isSome)
          ((validRoots roots).map RootDecl.label) = _
        rw [decide_status, hany, hall']
        rfl
      · obtain ⟨x, hxmem, hxid⟩ := List.any_eq_true.mp hany
        have hx : x = true := hxid
        subst hx
        obtain ⟨n, hn⟩ := exists_fst_of_mem_snd ((validRoots roots).map RootDecl.label)
          ((idxs.map (fun i => lookupEntry k i)).map Option.isSome) true
          (by rw [hlen, List.length_map, List.length_map]) hxmem
        apply List.ne_nil_of_mem (a := n)
        show n ∈ (((validRoots roots).map RootDecl.label).zip
          ((idxs.map (fun i => lookupEntry k i)).map Option.isSome)).filterMap
            (fun p => if p.2 then some p.1 else none)
        exact List.mem_filterMap.mpr ⟨(n, true), hn, by simp⟩

theorem claim10_amended_witness :
    ([true, true, false].any id) = true :=
  (claim10_amended demoRootsMissingAll (rowsOf (mainRun demoRootsMissingAll))
    ⟨"foo.py", ["missing", "all", "c"], [true, true, false], "missing_all",
      [some 1, some 1, none], "G1:missing,all", 1⟩ (by decide) (by decide)).1

end MDiff

